import Mathlib

/-!
Shallow embedding of the df2 waveform reader (`src/lib.rs`).

Byte streams are modelled as `List Nat` (each element one byte); all
16-bit reads are little-endian.  The u16 machine arithmetic of the Rust
source (`offset * 2`, `bytes_remaining -= outgoing.len()`,
`data.len() as u16 * 2 + 6`, `offset * 2 + 2`) is modelled with explicit
`% 65536` wrapping.  Fallible operations return an `Option` or a
`DfResult` mirroring the crate's `Result`.  The in-memory source has the
seek semantics of `File`/`BufReader<File>` (the only instantiation the
crate constructs): seeking relative by a non-negative amount always
succeeds and lands exactly at the computed target, also past
end-of-stream, and a read past end-of-stream yields `UnexpectedEof`,
which is the sole kind of I/O failure an in-memory source can produce.
-/

namespace Df2

/-- Read a little-endian unsigned 16-bit value from the front of a byte
stream, returning the value and the remaining stream; `none` when fewer
than two bytes are available (`ErrorKind::UnexpectedEof` in the source:
`byteorder`'s `read_u16` reports `UnexpectedEof` both when zero bytes
and when only one byte is available). -/
def readU16 : List Nat → Option (Nat × List Nat)
  | b0 :: b1 :: rest => some (b0 % 256 + 256 * (b1 % 256), rest)
  | _ => none

/-- Little-endian two-byte encoding of a 16-bit value. -/
def u16le (v : Nat) : List Nat := [v % 256, v / 256 % 256]

/-- A waveform segment (`struct Segment`): samples plus a time interval. -/
structure Segment where
  data : List Nat
  time_interval : Nat
deriving DecidableEq

/-- Read `n` consecutive little-endian u16 samples. -/
def readSamples : Nat → List Nat → Option (List Nat × List Nat)
  | 0, s => some ([], s)
  | n + 1, s =>
    match readU16 s with
    | none => none
    | some (x, s1) =>
      match readSamples n s1 with
      | none => none
      | some (xs, s2) => some (x :: xs, s2)

/-- Shallow embedding of `Segment::from_read`: read the sample count,
that many samples, the time interval, then read and discard the reserved
field. -/
def Segment.from_read (s : List Nat) : Option (Segment × List Nat) :=
  match readU16 s with
  | none => none
  | some (n, s1) =>
    match readSamples n s1 with
    | none => none
    | some (data, s2) =>
      match readU16 s2 with
      | none => none
      | some (ti, s3) =>
        match readU16 s3 with
        | none => none
        | some (_, s4) => some (⟨data, ti⟩, s4)

/-- Shallow embedding of `Segment::len`: `self.data.len() as u16 * 2 + 6`
in wrapping 16-bit arithmetic. -/
def Segment.len (g : Segment) : Nat := (2 * g.data.length + 6) % 65536

/-- Exact number of bytes a segment occupies in the stream
(sample-count field + samples + time-interval field + reserved field). -/
def Segment.encLen (g : Segment) : Nat := 2 * g.data.length + 6

/-- The crate's `enum Error` (the `Io` payload reduced to the only
failure an in-memory byte source produces). -/
inductive Error where
  | invalidOffset (shot_number : Nat) (offset : Nat)
  | invalidShotNumber (number : Nat)
  | ioErr
deriving DecidableEq

/-- The crate's `Result` type. -/
inductive DfResult (α : Type) where
  | ok (val : α) : DfResult α
  | err (e : Error) : DfResult α
deriving DecidableEq

/-- Map over the success value of a `DfResult`. -/
def DfResult.map {α β : Type} (f : α → β) : DfResult α → DfResult β
  | .ok a => .ok (f a)
  | .err e => .err e

/-- A decoded shot (`struct Shot`): its number, the outgoing pulse
samples, and the echo segments. -/
structure Shot where
  number : Nat
  outgoing : List Nat
  segments : List Segment
deriving DecidableEq

/-- Initial byte budget of `read_one`: `offset * 2` in wrapping u16
arithmetic (line 80 of the source). -/
def bytesRemainingInit (off : Nat) : Nat := off * 2 % 65536

/-- The skip distance computed in `seek`: `offset * 2 + 2` in wrapping
u16 arithmetic (line 128 of the source). -/
def seekStride (off : Nat) : Nat := (off * 2 + 2) % 65536

/-- Wrapping u16 subtraction, for arguments below `2 ^ 16`. -/
def wsub (a b : Nat) : Nat := (a + 65536 - b) % 65536

/-- Fuel-indexed embedding of the echo-segment loop of `read_one`
(lines 84-94): while `bytes_remaining > 0`, decode a segment, reject the
record when the segment's length exceeds the budget, otherwise subtract
and continue.  `none` means the fuel ran out; fuel above the stream
length never runs out (`readEchoesF_isSome`). -/
def readEchoesF (number off : Nat) :
    Nat → Nat → List Nat → Option (DfResult (List Segment × List Nat))
  | 0, _, _ => none
  | fuel + 1, br, s =>
    if br = 0 then some (.ok ([], s))
    else
      match Segment.from_read s with
      | none => some (.err .ioErr)
      | some (seg, s1) =>
        if br < seg.len then some (.err (.invalidOffset number off))
        else
          match readEchoesF number off fuel (br - seg.len) s1 with
          | none => none
          | some (.err e) => some (.err e)
          | some (.ok (segs, s2)) => some (.ok (seg :: segs, s2))

/-- The echo-segment loop, run with sufficient fuel. -/
def readEchoes (number off br : Nat) (s : List Nat) :
    DfResult (List Segment × List Nat) :=
  (readEchoesF number off (s.length + 1) br s).getD (.err .ioErr)

/-- Shallow embedding of `Reader::read_one` on an in-memory byte stream.
Returns the decoded shot together with the remaining stream, `none` at
clean end-of-stream (an `UnexpectedEof` while reading the number field),
or an error. -/
def read_one (s : List Nat) : DfResult (Option (Shot × List Nat)) :=
  match readU16 s with
  | none => .ok none
  | some (number, s1) =>
    match readU16 s1 with
    | none => .err .ioErr
    | some (off, s2) =>
      match Segment.from_read s2 with
      | none => .err .ioErr
      | some (outgoing, s3) =>
        match readEchoes number off
            (wsub (bytesRemainingInit off) outgoing.len) s3 with
        | .err e => .err e
        | .ok (segs, s4) => .ok (some (⟨number, outgoing.data, segs⟩, s4))

/-- Embedding of the offset-chain walk of `Reader::seek` (lines 127-136).
`current` and `position` are the source's loop variables; `rpos` is the
reader's cursor.  Reading the offset field advances the cursor by two
bytes; the relative seek lands exactly at `rpos + 2 + stride` (File
semantics), so the source's `new_position` check is executed but can
never fire.  Fuel at least `number` suffices since `current` starts
at 1. -/
def seekLoop (data : List Nat) (number : Nat) :
    Nat → Nat → Nat → Nat → DfResult Nat
  | 0, _, _, rpos => .ok rpos
  | fuel + 1, current, position, rpos =>
    if current < number then
      match readU16 (data.drop rpos) with
      | none => .err .ioErr
      | some (off, _) =>
        let str := seekStride off
        let rpos1 := rpos + 2
        let position1 := position + 2
        let newPosition := rpos1 + str
        if newPosition ≠ position1 + str then .err (.invalidShotNumber number)
        else seekLoop data number fuel (current + 1) (position1 + str) newPosition
    else .ok rpos

/-- Shallow embedding of `Reader::seek` on an in-memory source with File
seek semantics.  Returns the cursor position at which the next
`read_one` starts.  The final `SeekFrom::Current(-2)` would fail on a
cursor below 2 (a negative target); that branch is unreachable since the
cursor starts at 2 and only grows. -/
def seek (data : List Nat) (number : Nat) : DfResult Nat :=
  if number = 0 then .err (.invalidShotNumber number)
  else
    match seekLoop data number number 1 2 2 with
    | .err e => .err e
    | .ok rpos => if rpos < 2 then .err .ioErr else .ok (rpos - 2)

/-- Fuel-indexed embedding of the `Iterator` implementation on `Reader`:
yield decoded shots until clean end-of-stream; a decode error is the
final element. -/
def readAllF : Nat → List Nat → List (DfResult Shot)
  | 0, _ => []
  | fuel + 1, s =>
    match read_one s with
    | .err e => [.err e]
    | .ok none => []
    | .ok (some (sh, s1)) => .ok sh :: readAllF fuel s1

/-- The shot sequence of a stream, with sufficient fuel (each successful
`read_one` consumes at least four bytes). -/
def readAll (s : List Nat) : List (DfResult Shot) := readAllF (s.length + 1) s

/-- Exact encoded byte length of a returned shot: the outgoing segment's
bytes plus each echo segment's bytes. -/
def shotEncodedBytes (sh : Shot) : Nat :=
  (2 * sh.outgoing.length + 6) + (sh.segments.map Segment.encLen).sum

/-- Encode a segment, with an explicit two-byte reserved field. -/
def encodeSegR (g : Segment) (res : List Nat) : List Nat :=
  u16le g.data.length ++ (g.data.map u16le).flatten ++ u16le g.time_interval ++ res

/-- Encode a full shot record, with explicit reserved bytes for the
outgoing segment and for each echo segment; the offset field is the body
length in 16-bit words, exactly as the layout in the spec prescribes. -/
def encodeShotR (number : Nat) (og : Segment) (r0 : List Nat)
    (es : List (Segment × List Nat)) : List Nat :=
  u16le number ++
    u16le ((encodeSegR og r0 ++ (es.map (fun p => encodeSegR p.1 p.2)).flatten).length / 2) ++
    (encodeSegR og r0 ++ (es.map (fun p => encodeSegR p.1 p.2)).flatten)

/-- Encode a shot record with all-zero reserved fields. -/
def encodeShot (number : Nat) (og : Segment) (es : List Segment) : List Nat :=
  encodeShotR number og [0, 0] (es.map (fun g => (g, [0, 0])))

/-- Encode consecutive shot records numbered from `k`. -/
def encodeStream (k : Nat) : List (Segment × List Segment) → List Nat
  | [] => []
  | (og, es) :: rest => encodeShot k og es ++ encodeStream (k + 1) rest

/-- A segment whose fields all fit in 16 bits. -/
def SegOk (g : Segment) : Prop :=
  g.data.length < 65536 ∧ (∀ v ∈ g.data, v < 65536) ∧ g.time_interval < 65536

instance : DecidablePred SegOk := fun g => by
  unfold SegOk; infer_instance

/-- Exact byte length of a shot record's body. -/
def shotBody (og : Segment) (es : List Segment) : Nat :=
  og.encLen + (es.map Segment.encLen).sum

/-- A stream description whose shots are all within the wrap-free range:
every segment's fields fit in 16 bits and every record body is at most
65532 bytes, so neither the `offset * 2` accounting of `read_one` nor
the `offset * 2 + 2` stride of `seek` wraps. -/
def StreamOk (shots : List (Segment × List Segment)) : Prop :=
  ∀ p ∈ shots, SegOk p.1 ∧ (∀ g ∈ p.2, SegOk g) ∧ shotBody p.1 p.2 ≤ 65532

instance : DecidablePred StreamOk := fun shots => by
  unfold StreamOk; infer_instance

/-- The shot values sequential decoding yields on an encoded stream. -/
def shotsList : Nat → List (Segment × List Segment) → List (DfResult Shot)
  | _, [] => []
  | k, (og, es) :: rest => .ok ⟨k, og.data, es⟩ :: shotsList (k + 1) rest

/-! Basic inversion lemmas for the decoding primitives. -/

lemma readU16_u16le (v : Nat) (h : v < 65536) (t : List Nat) :
    readU16 (u16le v ++ t) = some (v, t) := by
  simp only [u16le, List.cons_append, List.nil_append, readU16, Option.some.injEq,
    Prod.mk.injEq]
  exact ⟨by omega, trivial⟩

lemma readU16_cons (b0 b1 : Nat) (rest : List Nat) :
    readU16 (b0 :: b1 :: rest) = some (b0 % 256 + 256 * (b1 % 256), rest) := rfl

lemma readU16_inv {s : List Nat} {v : Nat} {s1 : List Nat}
    (h : readU16 s = some (v, s1)) : s1.length + 2 = s.length ∧ v < 65536 := by
  match s with
  | [] => simp [readU16] at h
  | [b0] => simp [readU16] at h
  | b0 :: b1 :: rest =>
    simp only [readU16, Option.some.injEq, Prod.mk.injEq] at h
    obtain ⟨hv, hs⟩ := h
    subst hs
    constructor
    · simp
    · have h0 : b0 % 256 < 256 := Nat.mod_lt _ (by omega)
      have h1 : b1 % 256 < 256 := Nat.mod_lt _ (by omega)
      omega

lemma readSamples_inv :
    ∀ (n : Nat) (s : List Nat) (xs : List Nat) (s1 : List Nat),
      readSamples n s = some (xs, s1) →
      xs.length = n ∧ s1.length + 2 * n = s.length ∧ (∀ v ∈ xs, v < 65536) := by
  intro n
  induction n with
  | zero =>
    intro s xs s1 h
    simp only [readSamples, Option.some.injEq, Prod.mk.injEq] at h
    obtain ⟨h1, h2⟩ := h
    subst h1; subst h2
    simp
  | succ m ih =>
    intro s xs s1 h
    simp only [readSamples] at h
    split at h
    · simp at h
    · rename_i x t1 hr
      split at h
      · simp at h
      · rename_i ys t2 hs
        simp only [Option.some.injEq, Prod.mk.injEq] at h
        obtain ⟨hxs, hs1⟩ := h
        subst hxs
        rw [← hs1]
        obtain ⟨hl1, hv1⟩ := readU16_inv hr
        obtain ⟨hl2, hl3, hv2⟩ := ih t1 ys t2 hs
        refine ⟨by simp [hl2], by omega, ?_⟩
        intro v hv
        rcases List.mem_cons.mp hv with h | h
        · subst h; exact hv1
        · exact hv2 v h

lemma from_read_inv {s : List Nat} {g : Segment} {s1 : List Nat}
    (h : Segment.from_read s = some (g, s1)) :
    s1.length + g.encLen = s.length ∧ SegOk g := by
  unfold Segment.from_read at h
  split at h
  · simp at h
  · rename_i n t1 h1
    split at h
    · simp at h
    · rename_i data t2 h2
      split at h
      · simp at h
      · rename_i ti t3 h3
        split at h
        · simp at h
        · rename_i x t4 h4
          simp only [Option.some.injEq, Prod.mk.injEq] at h
          obtain ⟨hg, hs1⟩ := h
          subst hg; subst hs1
          obtain ⟨l1, v1⟩ := readU16_inv h1
          obtain ⟨l2, l3, v2⟩ := readSamples_inv n t1 data t2 h2
          obtain ⟨l4, v4⟩ := readU16_inv h3
          obtain ⟨l5, _⟩ := readU16_inv h4
          constructor
          · simp only [Segment.encLen]
            omega
          · simp only [SegOk]
            exact ⟨by omega, v2, v4⟩

lemma encLen_pos (g : Segment) : 6 ≤ g.encLen := by
  simp only [Segment.encLen]
  omega

lemma from_read_lt {s : List Nat} {g : Segment} {s1 : List Nat}
    (h : Segment.from_read s = some (g, s1)) : s1.length < s.length := by
  obtain ⟨hl, _⟩ := from_read_inv h
  have h6 : 6 ≤ g.encLen := encLen_pos g
  omega

lemma len_eq_encLen_mod (g : Segment) : g.len = g.encLen % 65536 := rfl

lemma len_lt (g : Segment) : g.len < 65536 := Nat.mod_lt _ (by omega)

/-! Round-trip lemmas: decoding an encoded segment recovers it. -/

lemma flatten_u16le_length :
    ∀ d : List Nat, ((d.map u16le).flatten).length = 2 * d.length := by
  intro d
  induction d with
  | nil => simp
  | cons x xs ih =>
    simp only [List.map_cons, List.flatten_cons, List.length_append, ih,
      List.length_cons, u16le, List.length_nil]
    omega

lemma readSamples_encode :
    ∀ (xs : List Nat), (∀ v ∈ xs, v < 65536) →
      ∀ t, readSamples xs.length ((xs.map u16le).flatten ++ t) = some (xs, t) := by
  intro xs
  induction xs with
  | nil => intro _ t; simp [readSamples]
  | cons x ys ih =>
    intro hv t
    have hx : x < 65536 := hv x (List.mem_cons_self x ys)
    simp only [List.map_cons, List.flatten_cons, List.length_cons, List.append_assoc]
    simp only [readSamples, readU16_u16le x hx]
    rw [ih (fun v h => hv v (List.mem_cons_of_mem x h)) t]

lemma from_read_encode (g : Segment) (res t : List Nat) (hok : SegOk g)
    (hr : res.length = 2) :
    Segment.from_read (encodeSegR g res ++ t) = some (g, t) := by
  obtain ⟨hlen, hval, hti⟩ := hok
  obtain ⟨a, b, rfl⟩ := List.length_eq_two.mp hr
  simp only [encodeSegR, List.append_assoc]
  simp only [Segment.from_read, readU16_u16le g.data.length hlen,
    readSamples_encode g.data hval, readU16_u16le g.time_interval hti]
  rfl

lemma encodeSegR_length (g : Segment) (res : List Nat) (hr : res.length = 2) :
    (encodeSegR g res).length = g.encLen := by
  simp only [encodeSegR, List.length_append, u16le, List.length_cons,
    List.length_nil, flatten_u16le_length, hr, Segment.encLen]
  omega

lemma two_dvd_encLen (g : Segment) : 2 ∣ g.encLen :=
  ⟨g.data.length + 3, by simp [Segment.encLen]; omega⟩

/-! The echo-segment loop: fuel adequacy and one-step unfolding. -/

lemma readEchoesF_congr (number off : Nat) :
    ∀ (f1 f2 br : Nat) (s : List Nat), s.length < f1 → s.length < f2 →
      readEchoesF number off f1 br s = readEchoesF number off f2 br s := by
  intro f1
  induction f1 with
  | zero => intro f2 br s h1 h2; omega
  | succ fa ih =>
    intro f2 br s h1 h2
    cases f2 with
    | zero => omega
    | succ fb =>
      simp only [readEchoesF]
      by_cases hbr : br = 0
      · simp [hbr]
      · simp only [hbr, if_false]
        cases hfr : Segment.from_read s with
        | none => rfl
        | some p =>
          obtain ⟨seg, s1⟩ := p
          by_cases hlen : br < seg.len
          · simp [hlen]
          · simp only [hlen, if_false]
            have hs1 : s1.length < s.length := from_read_lt hfr
            rw [ih fb (br - seg.len) s1 (by omega) (by omega)]

lemma readEchoesF_isSome (number off : Nat) :
    ∀ (fuel br : Nat) (s : List Nat), s.length < fuel →
      readEchoesF number off fuel br s ≠ none := by
  intro fuel
  induction fuel with
  | zero => intro br s h; omega
  | succ fa ih =>
    intro br s h
    simp only [readEchoesF]
    by_cases hbr : br = 0
    · simp [hbr]
    · simp only [hbr, if_false]
      cases hfr : Segment.from_read s with
      | none => simp
      | some p =>
        obtain ⟨seg, s1⟩ := p
        by_cases hlen : br < seg.len
        · simp [hlen]
        · simp only [hlen, if_false]
          have hs1 : s1.length < s.length := from_read_lt hfr
          cases hres : readEchoesF number off fa (br - seg.len) s1 with
          | none => exact absurd hres (ih (br - seg.len) s1 (by omega))
          | some r => cases r with
            | err e => simp
            | ok q => simp

lemma readEchoesF_eq_some (number off fuel br : Nat) (s : List Nat)
    (h : s.length < fuel) :
    readEchoesF number off fuel br s = some (readEchoes number off br s) := by
  unfold readEchoes
  rw [readEchoesF_congr number off fuel (s.length + 1) br s h (by omega)]
  cases h2 : readEchoesF number off (s.length + 1) br s with
  | none => exact absurd h2 (readEchoesF_isSome number off (s.length + 1) br s (by omega))
  | some r => rfl

lemma readEchoes_zero (number off : Nat) (s : List Nat) :
    readEchoes number off 0 s = .ok ([], s) := by
  simp [readEchoes, readEchoesF]

lemma readEchoes_noSeg (number off br : Nat) (s : List Nat) (hbr : 0 < br)
    (hfr : Segment.from_read s = none) :
    readEchoes number off br s = .err .ioErr := by
  simp [readEchoes, readEchoesF, Nat.pos_iff_ne_zero.mp hbr, hfr]

lemma readEchoes_invalid (number off br : Nat) (s : List Nat) (g : Segment)
    (s1 : List Nat) (hbr : 0 < br) (hfr : Segment.from_read s = some (g, s1))
    (hlen : br < g.len) :
    readEchoes number off br s = .err (.invalidOffset number off) := by
  simp [readEchoes, readEchoesF, Nat.pos_iff_ne_zero.mp hbr, hfr, hlen]

lemma readEchoes_cons (number off br : Nat) (s : List Nat) (g : Segment)
    (s1 : List Nat) (hbr : 0 < br) (hfr : Segment.from_read s = some (g, s1))
    (hlen : g.len ≤ br) :
    readEchoes number off br s
      = (readEchoes number off (br - g.len) s1).map (fun p => (g :: p.1, p.2)) := by
  conv_lhs => rw [readEchoes]
  simp only [readEchoesF, Nat.pos_iff_ne_zero.mp hbr, if_false, hfr,
    Nat.not_lt.mpr hlen, if_neg (Nat.not_lt.mpr hlen)]
  rw [readEchoesF_eq_some number off s.length (br - g.len) s1 (from_read_lt hfr)]
  cases readEchoes number off (br - g.len) s1 with
  | err e => rfl
  | ok q => rfl

lemma readEchoesF_sum (number off : Nat) :
    ∀ (fuel br : Nat) (s : List Nat) (segs : List Segment) (s1 : List Nat),
      readEchoesF number off fuel br s = some (.ok (segs, s1)) →
      (segs.map Segment.len).sum = br := by
  intro fuel
  induction fuel with
  | zero => intro br s segs s1 h; simp [readEchoesF] at h
  | succ fa ih =>
    intro br s segs s1 h
    simp only [readEchoesF] at h
    by_cases hbr : br = 0
    · simp only [hbr, if_true, Option.some.injEq, DfResult.ok.injEq,
        Prod.mk.injEq] at h
      rw [← h.1]
      simp [hbr]
    · simp only [hbr, if_false] at h
      cases hfr : Segment.from_read s with
      | none => rw [hfr] at h; simp at h
      | some p =>
        obtain ⟨seg, s2⟩ := p
        rw [hfr] at h
        by_cases hlen : br < seg.len
        · simp [hlen] at h
        · simp only [hlen, if_false] at h
          cases hres : readEchoesF number off fa (br - seg.len) s2 with
          | none => rw [hres] at h; simp at h
          | some r =>
            rw [hres] at h
            cases r with
            | err e => simp at h
            | ok q =>
              obtain ⟨segs2, s3⟩ := q
              simp only [Option.some.injEq] at h
              have h2 := ih (br - seg.len) s2 segs2 s3 hres
              cases h' : segs with
              | nil => subst h'; simp at h
              | cons a l =>
                subst h'
                simp only [DfResult.ok.injEq, Prod.mk.injEq, List.cons.injEq] at h
                obtain ⟨⟨ha, hl⟩, _⟩ := h
                subst ha
                rw [hl] at h2
                simp only [List.map_cons, List.sum_cons, h2]
                omega

lemma readEchoes_sum {number off br : Nat} {s : List Nat} {segs : List Segment}
    {s1 : List Nat} (h : readEchoes number off br s = .ok (segs, s1)) :
    (segs.map Segment.len).sum = br := by
  have h2 := readEchoesF_eq_some number off (s.length + 1) br s
    (show s.length < s.length + 1 by omega)
  rw [h] at h2
  exact readEchoesF_sum number off (s.length + 1) br s segs s1 h2

lemma readEchoesF_invalid_inv (number off : Nat) :
    ∀ (fuel br : Nat) (s : List Nat) (a b : Nat),
      readEchoesF number off fuel br s = some (.err (.invalidOffset a b)) →
      a = number ∧ b = off := by
  intro fuel
  induction fuel with
  | zero => intro br s a b h; simp [readEchoesF] at h
  | succ fa ih =>
    intro br s a b h
    simp only [readEchoesF] at h
    by_cases hbr : br = 0
    · simp [hbr] at h
    · simp only [hbr, if_false] at h
      cases hfr : Segment.from_read s with
      | none => rw [hfr] at h; simp at h
      | some p =>
        obtain ⟨seg, s2⟩ := p
        rw [hfr] at h
        by_cases hlen : br < seg.len
        · simp only [hlen, if_true, Option.some.injEq, DfResult.err.injEq,
            Error.invalidOffset.injEq] at h
          exact ⟨h.1.symm, h.2.symm⟩
        · simp only [hlen, if_false] at h
          cases hres : readEchoesF number off fa (br - seg.len) s2 with
          | none => rw [hres] at h; simp at h
          | some r =>
            rw [hres] at h
            cases r with
            | err e =>
              simp only [Option.some.injEq, DfResult.err.injEq] at h
              rw [h] at hres
              exact ih (br - seg.len) s2 a b hres
            | ok q => obtain ⟨u, w⟩ := q; simp at h

lemma readEchoes_invalid_inv {number off br : Nat} {s : List Nat} {a b : Nat}
    (h : readEchoes number off br s = .err (.invalidOffset a b)) :
    a = number ∧ b = off := by
  have h2 := readEchoesF_eq_some number off (s.length + 1) br s
    (show s.length < s.length + 1 by omega)
  rw [h] at h2
  exact readEchoesF_invalid_inv number off (s.length + 1) br s a b h2

/-! Decoding an encoded echo-segment list and an encoded shot record. -/

lemma flatten_encodeSegR_length :
    ∀ (es : List (Segment × List Nat)), (∀ p ∈ es, p.2.length = 2) →
      ((es.map fun p => encodeSegR p.1 p.2).flatten).length
        = (es.map fun p => p.1.encLen).sum := by
  intro es
  induction es with
  | nil => simp
  | cons p rest ih =>
    intro h
    simp only [List.map_cons, List.flatten_cons, List.length_append, List.sum_cons]
    rw [encodeSegR_length p.1 p.2 (h p (List.mem_cons_self p rest)),
      ih (fun q hq => h q (List.mem_cons_of_mem p hq))]

lemma readEchoes_encode (number off : Nat) :
    ∀ (es : List (Segment × List Nat)) (t : List Nat),
      (∀ p ∈ es, SegOk p.1 ∧ p.2.length = 2) →
      (es.map fun p => p.1.encLen).sum ≤ 65534 →
      readEchoes number off ((es.map fun p => p.1.encLen).sum)
          (((es.map fun p => encodeSegR p.1 p.2).flatten) ++ t)
        = .ok (es.map Prod.fst, t) := by
  intro es
  induction es with
  | nil =>
    intro t _ _
    simp only [List.map_nil, List.sum_nil, List.flatten_nil, List.nil_append]
    exact readEchoes_zero number off t
  | cons p rest ih =>
    intro t hok hsum
    obtain ⟨hp, hr⟩ := hok p (List.mem_cons_self p rest)
    simp only [List.map_cons, List.sum_cons, List.flatten_cons, List.append_assoc]
    have henc : Segment.len p.1 = p.1.encLen := by
      rw [len_eq_encLen_mod]
      have : p.1.encLen ≤ 65534 := by
        simp only [List.map_cons, List.sum_cons] at hsum
        omega
      omega
    have hfr := from_read_encode p.1 p.2 (((rest.map fun p => encodeSegR p.1 p.2).flatten) ++ t) hp hr
    have hpos : 0 < p.1.encLen + (rest.map fun p => p.1.encLen).sum := by
      have := encLen_pos p.1; omega
    rw [readEchoes_cons number off _ _ p.1 _ hpos hfr (by rw [henc]; omega)]
    rw [henc]
    have hsub : p.1.encLen + (rest.map fun p => p.1.encLen).sum - p.1.encLen
        = (rest.map fun p => p.1.encLen).sum := by omega
    rw [hsub]
    have hsum2 : (rest.map fun p => p.1.encLen).sum ≤ 65534 := by
      simp only [List.map_cons, List.sum_cons] at hsum
      omega
    rw [ih t (fun q hq => hok q (List.mem_cons_of_mem p hq)) hsum2]
    rfl

lemma read_one_encode (number : Nat) (og : Segment) (r0 : List Nat)
    (es : List (Segment × List Nat)) (t : List Nat)
    (hn : number < 65536) (hog : SegOk og) (hr0 : r0.length = 2)
    (hes : ∀ p ∈ es, SegOk p.1 ∧ p.2.length = 2)
    (hbody : og.encLen + (es.map fun p => p.1.encLen).sum ≤ 65534) :
    read_one (encodeShotR number og r0 es ++ t)
      = .ok (some (⟨number, og.data, es.map Prod.fst⟩, t)) := by
  have hlenbody : (encodeSegR og r0 ++ (es.map fun p => encodeSegR p.1 p.2).flatten).length
      = og.encLen + (es.map fun p => p.1.encLen).sum := by
    rw [List.length_append, encodeSegR_length og r0 hr0,
      flatten_encodeSegR_length es (fun q hq => (hes q hq).2)]
  set L : Nat := og.encLen + (es.map fun p => p.1.encLen).sum with hL
  have hdvd : 2 ∣ L := by
    apply Nat.dvd_add (two_dvd_encLen og)
    apply List.dvd_sum
    intro x hx
    obtain ⟨q, hq, hqx⟩ := List.mem_map.mp hx
    rw [← hqx]
    exact two_dvd_encLen q.1
  have hoff : L / 2 < 65536 := by omega
  have hbr : bytesRemainingInit (L / 2) = L := by
    unfold bytesRemainingInit
    rw [Nat.div_mul_cancel hdvd]
    omega
  have hoglen : Segment.len og = og.encLen := by
    rw [len_eq_encLen_mod]
    have := encLen_pos og
    omega
  have hwsub : wsub L og.encLen = (es.map fun p => p.1.encLen).sum := by
    unfold wsub
    omega
  simp only [encodeShotR, List.append_assoc]
  rw [hlenbody]
  simp only [read_one, readU16_u16le number hn, readU16_u16le (L / 2) hoff,
    from_read_encode og r0 (((es.map fun p => encodeSegR p.1 p.2).flatten) ++ t) hog hr0,
    hbr, hoglen, hwsub, readEchoes_encode number (L / 2) es t hes (by omega)]

/-! Multi-shot streams: sequential decoding and lengths. -/

lemma read_one_encodeShot (number : Nat) (og : Segment) (es : List Segment)
    (t : List Nat) (hn : number < 65536) (hog : SegOk og)
    (hes : ∀ g ∈ es, SegOk g) (hbody : shotBody og es ≤ 65534) :
    read_one (encodeShot number og es ++ t)
      = .ok (some (⟨number, og.data, es⟩, t)) := by
  unfold encodeShot
  have hc1 : ((fun p => p.1.encLen) ∘ fun g : Segment => (g, ([0, 0] : List Nat)))
      = Segment.encLen := rfl
  have hc2 : (Prod.fst ∘ fun g : Segment => (g, ([0, 0] : List Nat))) = id := rfl
  have hmap : ((es.map fun g => (g, [0, 0])).map fun p => p.1.encLen).sum
      = (es.map Segment.encLen).sum := by
    rw [List.map_map, hc1]
  rw [read_one_encode number og [0, 0] (es.map fun g => (g, [0, 0])) t hn hog rfl
    (by
      intro p hp
      obtain ⟨g, hg, rfl⟩ := List.mem_map.mp hp
      exact ⟨hes g hg, rfl⟩)
    (by
      rw [hmap]
      exact hbody)]
  rw [List.map_map, hc2, List.map_id]

lemma encodeShot_length (number : Nat) (og : Segment) (es : List Segment) :
    (encodeShot number og es).length = 4 + shotBody og es := by
  unfold encodeShot encodeShotR
  simp only [List.length_append, u16le, List.length_cons, List.length_nil]
  rw [encodeSegR_length og [0, 0] rfl]
  have hc1 : ((fun p => p.1.encLen) ∘ fun g : Segment => (g, ([0, 0] : List Nat)))
      = Segment.encLen := rfl
  have hfl : ((es.map fun g => (g, ([0, 0] : List Nat))).map fun p => encodeSegR p.1 p.2).flatten.length
      = ((es.map fun g => (g, ([0, 0] : List Nat))).map fun p => p.1.encLen).sum := by
    apply flatten_encodeSegR_length
    intro p hp
    obtain ⟨g, hg, rfl⟩ := List.mem_map.mp hp
    rfl
  rw [hfl, List.map_map, hc1]
  unfold shotBody
  omega

lemma encodeStream_split :
    ∀ (shots : List (Segment × List Segment)) (j k : Nat),
      encodeStream k shots
        = encodeStream k (shots.take j) ++ encodeStream (k + j) (shots.drop j) := by
  intro shots
  induction shots with
  | nil => intro j k; simp [encodeStream]
  | cons p rest ih =>
    intro j k
    cases j with
    | zero => simp [encodeStream]
    | succ m =>
      obtain ⟨og, es⟩ := p
      simp only [List.take_succ_cons, List.drop_succ_cons, encodeStream,
        List.append_assoc]
      rw [ih m (k + 1)]
      have : k + 1 + m = k + (m + 1) := by omega
      rw [this]

lemma encodeStream_length_ge :
    ∀ (shots : List (Segment × List Segment)) (k : Nat),
      shots.length ≤ (encodeStream k shots).length := by
  intro shots
  induction shots with
  | nil => simp [encodeStream]
  | cons p rest ih =>
    intro k
    obtain ⟨og, es⟩ := p
    simp only [encodeStream, List.length_append, List.length_cons]
    have h1 := ih (k + 1)
    have h2 : 4 + shotBody og es = (encodeShot k og es).length :=
      (encodeShot_length k og es).symm
    have h3 : 1 ≤ (encodeShot k og es).length := by omega
    omega

lemma readAllF_encode :
    ∀ (shots : List (Segment × List Segment)) (k fuel : Nat),
      StreamOk shots → k + shots.length ≤ 65536 → shots.length < fuel →
      readAllF fuel (encodeStream k shots) = shotsList k shots := by
  intro shots
  induction shots with
  | nil =>
    intro k fuel _ _ hf
    cases fuel with
    | zero => omega
    | succ m => simp [encodeStream, readAllF, read_one, readU16, shotsList]
  | cons p rest ih =>
    intro k fuel hok hb hf
    obtain ⟨og, es⟩ := p
    cases fuel with
    | zero => omega
    | succ m =>
      obtain ⟨hog, hes, hbody⟩ := hok (og, es) (List.mem_cons_self _ rest)
      have hog2 : SegOk og := hog
      have hes2 : ∀ g ∈ es, SegOk g := hes
      have hbody2 : shotBody og es ≤ 65532 := hbody
      simp only [encodeStream, readAllF]
      rw [read_one_encodeShot k og es (encodeStream (k + 1) rest)
        (by simp at hb; omega) hog2 hes2 (by omega)]
      simp only [shotsList]
      rw [ih (k + 1) m (fun q hq => hok q (List.mem_cons_of_mem _ hq))
        (by simp at hb ⊢; omega) (by simp at hf; omega)]

lemma shotsList_getElem? :
    ∀ (shots : List (Segment × List Segment)) (k j : Nat) (og : Segment)
      (es : List Segment), shots[j]? = some (og, es) →
      (shotsList k shots)[j]? = some (.ok ⟨k + j, og.data, es⟩) := by
  intro shots
  induction shots with
  | nil => intro k j og es h; simp at h
  | cons p rest ih =>
    intro k j og es h
    cases j with
    | zero =>
      simp only [List.getElem?_cons_zero, Option.some.injEq] at h
      subst h
      simp [shotsList]
    | succ m =>
      simp only [List.getElem?_cons_succ] at h
      obtain ⟨og2, es2⟩ := p
      simp only [shotsList, List.getElem?_cons_succ]
      rw [ih (k + 1) m og es h]
      have : k + 1 + m = k + (m + 1) := by omega
      rw [this]

/-! The offset-chain walk of `seek` over an encoded stream. -/

lemma two_dvd_shotBody (og : Segment) (es : List Segment) : 2 ∣ shotBody og es := by
  apply Nat.dvd_add (two_dvd_encLen og)
  apply List.dvd_sum
  intro x hx
  obtain ⟨g, hg, hgx⟩ := List.mem_map.mp hx
  rw [← hgx]
  exact two_dvd_encLen g

lemma encodeBody_length (og : Segment) (es : List Segment) :
    (encodeSegR og [0, 0]
      ++ ((es.map fun g => (g, [0, 0])).map fun p => encodeSegR p.1 p.2).flatten).length
    = shotBody og es := by
  have hc1 : ((fun p => p.1.encLen) ∘ fun g : Segment => (g, ([0, 0] : List Nat)))
      = Segment.encLen := rfl
  rw [List.length_append, encodeSegR_length og [0, 0] rfl,
    flatten_encodeSegR_length _ (by
      intro p hp
      obtain ⟨g, hg, rfl⟩ := List.mem_map.mp hp
      rfl),
    List.map_map, hc1]
  rfl

lemma drop_append_add {α : Type} (pre rest : List α) (k : Nat) :
    (pre ++ rest).drop (pre.length + k) = rest.drop k := by
  rw [← List.drop_drop, List.drop_left]

lemma seekLoop_walk (number : Nat) :
    ∀ (rem : List (Segment × List Segment)) (c : Nat) (pre : List Nat) (fuel : Nat),
      StreamOk rem → number ≤ c + fuel → number - c ≤ rem.length →
      seekLoop (pre ++ encodeStream c rem) number fuel c (pre.length + 2) (pre.length + 2)
        = .ok (pre.length + (encodeStream c (rem.take (number - c))).length + 2) := by
  intro rem
  induction rem with
  | nil =>
    intro c pre fuel hok hfuel hle
    have hle0 : number - c = 0 := by simpa using hle
    have hc : ¬ c < number := by omega
    have htake : (List.take (number - c) ([] : List (Segment × List Segment))) = [] := by
      simp
    rw [htake]
    cases fuel with
    | zero => simp [seekLoop, encodeStream]
    | succ m => simp [seekLoop, hc, encodeStream]
  | cons p rest ih =>
    intro c pre fuel hok hfuel hle
    obtain ⟨og, es⟩ := p
    by_cases hc : c < number
    · cases fuel with
      | zero => omega
      | succ m =>
        obtain ⟨hog, hes, hbody⟩ := hok (og, es) (List.mem_cons_self _ rest)
        have hbody2 : shotBody og es ≤ 65532 := hbody
        have hdvd : 2 ∣ shotBody og es := two_dvd_shotBody og es
        have hstream : encodeStream c ((og, es) :: rest)
            = encodeShot c og es ++ encodeStream (c + 1) rest := rfl
        have hshot : encodeShot c og es
            = u16le c ++ (u16le (shotBody og es / 2)
                ++ (encodeSegR og [0, 0]
                  ++ ((es.map fun g => (g, [0, 0])).map fun p => encodeSegR p.1 p.2).flatten)) := by
          unfold encodeShot encodeShotR
          rw [encodeBody_length og es]
          simp [List.append_assoc]
        have hdrop : (pre ++ encodeStream c ((og, es) :: rest)).drop (pre.length + 2)
            = u16le (shotBody og es / 2)
              ++ ((encodeSegR og [0, 0]
                  ++ ((es.map fun g => (g, [0, 0])).map fun p => encodeSegR p.1 p.2).flatten)
                ++ encodeStream (c + 1) rest) := by
          rw [drop_append_add, hstream, hshot]
          simp [u16le, List.append_assoc]
        have hoff : shotBody og es / 2 < 65536 := by omega
        have hstride : seekStride (shotBody og es / 2) = shotBody og es + 2 := by
          unfold seekStride
          rw [Nat.div_mul_cancel hdvd]
          omega
        simp only [seekLoop, if_pos hc, hdrop, readU16_u16le (shotBody og es / 2) hoff,
          hstride]
        rw [if_neg (by omega)]
        have hlen : (encodeShot c og es).length = 4 + shotBody og es :=
          encodeShot_length c og es
        have happ : pre ++ encodeStream c ((og, es) :: rest)
            = (pre ++ encodeShot c og es) ++ encodeStream (c + 1) rest := by
          rw [hstream, List.append_assoc]
        rw [happ]
        have hpos1 : pre.length + 2 + 2 + (shotBody og es + 2)
            = (pre ++ encodeShot c og es).length + 2 := by
          rw [List.length_append, hlen]
          omega
        rw [hpos1]
        rw [ih (c + 1) (pre ++ encodeShot c og es) m
          (fun q hq => hok q (List.mem_cons_of_mem _ hq)) (by omega) (by
            simp only [List.length_cons] at hle
            omega)]
        have htake : (List.take (number - c) ((og, es) :: rest))
            = (og, es) :: List.take (number - c - 1) rest := by
          have h1 : number - c = (number - c - 1) + 1 := by omega
          rw [h1, List.take_succ_cons, Nat.add_sub_cancel]
        rw [htake]
        have henc : encodeStream c ((og, es) :: List.take (number - c - 1) rest)
            = encodeShot c og es ++ encodeStream (c + 1) (List.take (number - c - 1) rest) := rfl
        rw [henc]
        have h2 : number - (c + 1) = number - c - 1 := by omega
        rw [h2]
        simp only [List.length_append]
        congr 1
        omega
    · cases fuel with
      | zero =>
        simp only [seekLoop]
        have htake : number - c = 0 := by omega
        rw [htake]
        simp [encodeStream]
      | succ m =>
        simp only [seekLoop, if_neg hc]
        have htake : number - c = 0 := by omega
        rw [htake]
        simp [encodeStream]

lemma seekLoop_overrun (number : Nat) :
    ∀ (rem : List (Segment × List Segment)) (c : Nat) (pre : List Nat) (fuel : Nat),
      StreamOk rem → number ≤ c + fuel → rem.length < number - c →
      seekLoop (pre ++ encodeStream c rem) number fuel c (pre.length + 2) (pre.length + 2)
        = .err .ioErr := by
  intro rem
  induction rem with
  | nil =>
    intro c pre fuel hok hfuel hlt
    have hc : c < number := by omega
    cases fuel with
    | zero => omega
    | succ m =>
      simp only [seekLoop, if_pos hc]
      have hdrop : (pre ++ encodeStream c ([] : List (Segment × List Segment))).drop
          (pre.length + 2) = [] := by
        simp only [encodeStream, List.append_nil]
        apply List.drop_eq_nil_of_le
        omega
      rw [hdrop]
      rfl
  | cons p rest ih =>
    intro c pre fuel hok hfuel hlt
    obtain ⟨og, es⟩ := p
    have hc : c < number := by
      simp only [List.length_cons] at hlt
      omega
    cases fuel with
    | zero => omega
    | succ m =>
      obtain ⟨hog, hes, hbody⟩ := hok (og, es) (List.mem_cons_self _ rest)
      have hbody2 : shotBody og es ≤ 65532 := hbody
      have hdvd : 2 ∣ shotBody og es := two_dvd_shotBody og es
      have hstream : encodeStream c ((og, es) :: rest)
          = encodeShot c og es ++ encodeStream (c + 1) rest := rfl
      have hshot : encodeShot c og es
          = u16le c ++ (u16le (shotBody og es / 2)
              ++ (encodeSegR og [0, 0]
                ++ ((es.map fun g => (g, [0, 0])).map fun p => encodeSegR p.1 p.2).flatten)) := by
        unfold encodeShot encodeShotR
        rw [encodeBody_length og es]
        simp [List.append_assoc]
      have hdrop : (pre ++ encodeStream c ((og, es) :: rest)).drop (pre.length + 2)
          = u16le (shotBody og es / 2)
            ++ ((encodeSegR og [0, 0]
                ++ ((es.map fun g => (g, [0, 0])).map fun p => encodeSegR p.1 p.2).flatten)
              ++ encodeStream (c + 1) rest) := by
        rw [drop_append_add, hstream, hshot]
        simp [u16le, List.append_assoc]
      have hoff : shotBody og es / 2 < 65536 := by omega
      have hstride : seekStride (shotBody og es / 2) = shotBody og es + 2 := by
        unfold seekStride
        rw [Nat.div_mul_cancel hdvd]
        omega
      simp only [seekLoop, if_pos hc, hdrop, readU16_u16le (shotBody og es / 2) hoff,
        hstride]
      rw [if_neg (by omega)]
      have hlen : (encodeShot c og es).length = 4 + shotBody og es :=
        encodeShot_length c og es
      have happ : pre ++ encodeStream c ((og, es) :: rest)
          = (pre ++ encodeShot c og es) ++ encodeStream (c + 1) rest := by
        rw [hstream, List.append_assoc]
      rw [happ]
      have hpos1 : pre.length + 2 + 2 + (shotBody og es + 2)
          = (pre ++ encodeShot c og es).length + 2 := by
        rw [List.length_append, hlen]
        omega
      rw [hpos1]
      apply ih (c + 1) (pre ++ encodeShot c og es) m
        (fun q hq => hok q (List.mem_cons_of_mem _ hq)) (by omega)
      simp only [List.length_cons] at hlt
      omega

lemma seek_encode (shots : List (Segment × List Segment)) (k : Nat)
    (hok : StreamOk shots) (h1 : 1 ≤ k) (hk : k ≤ shots.length + 1) :
    seek (encodeStream 1 shots) k
      = .ok ((encodeStream 1 (shots.take (k - 1))).length) := by
  unfold seek
  rw [if_neg (by omega)]
  have hw := seekLoop_walk k shots 1 ([] : List Nat) k hok (by omega) (by omega)
  simp only [List.nil_append, List.length_nil, Nat.zero_add] at hw
  simp only [hw]
  rw [if_neg (by omega)]
  simp

lemma seek_overrun (shots : List (Segment × List Segment)) (t : Nat)
    (hok : StreamOk shots) (ht : shots.length + 1 < t) :
    seek (encodeStream 1 shots) t = .err .ioErr := by
  unfold seek
  rw [if_neg (by omega)]
  have hw := seekLoop_overrun t shots 1 ([] : List Nat) t hok (by omega) (by omega)
  simp only [List.nil_append, List.length_nil, Nat.zero_add] at hw
  rw [hw]

lemma sum_encLen_mod (segs : List Segment) :
    (segs.map Segment.encLen).sum % 65536 = (segs.map Segment.len).sum % 65536 := by
  induction segs with
  | nil => rfl
  | cons g l ih =>
    simp only [List.map_cons, List.sum_cons]
    rw [Nat.add_mod, ih, ← len_eq_encLen_mod]
    omega

lemma readSamples_det :
    ∀ (n : Nat) (samps : List Nat), samps.length = 2 * n →
      ∃ xs : List Nat, ∀ r, readSamples n (samps ++ r) = some (xs, r) := by
  intro n
  induction n with
  | zero =>
    intro samps h
    have hnil : samps = [] := List.eq_nil_of_length_eq_zero (by omega)
    subst hnil
    exact ⟨[], fun r => by simp [readSamples]⟩
  | succ m ih =>
    intro samps h
    match samps, h with
    | b0 :: b1 :: rest, h =>
      have hlen : rest.length = 2 * m := by
        simp only [List.length_cons] at h
        omega
      obtain ⟨xs, hxs⟩ := ih rest hlen
      refine ⟨(b0 % 256 + 256 * (b1 % 256)) :: xs, fun r => ?_⟩
      simp only [List.cons_append, readSamples, readU16, hxs r]

/-! A segment with 32765 samples: its exact encoded size is 65536 bytes,
so its u16 `len` wraps to 0.  Used by several counterexamples. -/

lemma bigSegOk : SegOk ⟨List.replicate 32765 0, 0⟩ := by
  unfold SegOk
  refine ⟨?_, ?_, ?_⟩
  · show (List.replicate 32765 (0 : Nat)).length < 65536
    rw [List.length_replicate]
    norm_num
  · intro v hv
    have hv2 : v ∈ List.replicate 32765 (0 : Nat) := hv
    rw [List.eq_of_mem_replicate hv2]
    norm_num
  · show (0 : Nat) < 65536
    norm_num

lemma len_mk (d : List Nat) (ti : Nat) :
    Segment.len ⟨d, ti⟩ = (2 * d.length + 6) % 65536 := rfl

lemma bigSeg_len : Segment.len ⟨List.replicate 32765 0, 0⟩ = 0 := by
  rw [len_mk, List.length_replicate]

lemma bigSeg_from_read (t : List Nat) :
    Segment.from_read (encodeSegR ⟨List.replicate 32765 0, 0⟩ [0, 0] ++ t)
      = some (⟨List.replicate 32765 0, 0⟩, t) :=
  from_read_encode _ _ _ bigSegOk rfl

lemma shotEncodedBytes_mk (number : Nat) (out : List Nat) (segs : List Segment) :
    shotEncodedBytes ⟨number, out, segs⟩
      = (2 * out.length + 6) + (segs.map Segment.encLen).sum := rfl

/-- A record whose offset field is zero but whose outgoing segment's u16
length wraps to zero decodes successfully with an empty echo list. -/
lemma read_one_zero_offset_wrap (number : Nat) (og : Segment) (res : List Nat)
    (hn : number < 65536) (hog : SegOk og) (hr : res.length = 2)
    (hlen : Segment.len og = 0) :
    read_one (u16le number ++ u16le 0 ++ encodeSegR og res)
      = .ok (some (⟨number, og.data, []⟩, [])) := by
  have hfr : Segment.from_read (encodeSegR og res) = some (og, []) := by
    have h := from_read_encode og res [] hog hr
    rwa [List.append_nil] at h
  simp only [read_one, List.append_assoc, readU16_u16le number hn,
    readU16_u16le 0 (by norm_num), hfr, hlen]
  have hw : wsub (bytesRemainingInit 0) 0 = 0 := by decide
  rw [hw, readEchoes_zero]

lemma encLen_mk (d : List Nat) (ti : Nat) :
    Segment.encLen ⟨d, ti⟩ = 2 * d.length + 6 := rfl

lemma shotBody_nil (og : Segment) : shotBody og [] = og.encLen := by
  unfold shotBody
  simp

/-- Reading `n` samples fails on a stream shorter than `2 * n` bytes. -/
lemma readSamples_short :
    ∀ (n : Nat) (s : List Nat), s.length < 2 * n → readSamples n s = none := by
  intro n
  induction n with
  | zero => intro s h; omega
  | succ m ih =>
    intro s h
    match s with
    | [] => rfl
    | [b0] => rfl
    | b0 :: b1 :: rest =>
      simp only [readSamples, readU16_cons]
      rw [ih rest (by simp only [List.length_cons] at h; omega)]

/-- With a budget of 6 the loop accepts a wrapped-length-0 segment of
32765 samples and then a 6-byte segment: two iterations, the first with
zero progress on the budget. -/
lemma readEchoes_wrap_pair (number off : Nat) :
    readEchoes number off 6
        (encodeSegR ⟨List.replicate 32765 0, 0⟩ [0, 0] ++ encodeSegR ⟨[], 0⟩ [0, 0])
      = .ok ([⟨List.replicate 32765 0, 0⟩, ⟨[], 0⟩], []) := by
  have hfr1 := bigSeg_from_read (encodeSegR ⟨[], 0⟩ [0, 0])
  have hfr2 : Segment.from_read (encodeSegR ⟨[], 0⟩ [0, 0]) = some (⟨[], 0⟩, []) := by
    have h := from_read_encode ⟨[], 0⟩ [0, 0] [] (by decide) rfl
    rwa [List.append_nil] at h
  rw [readEchoes_cons number off 6 _ _ _ (by omega) hfr1 (by rw [bigSeg_len]; omega)]
  rw [bigSeg_len, Nat.sub_zero]
  rw [readEchoes_cons number off 6 _ _ _ (by omega) hfr2 (by decide)]
  have h0 : (6 : Nat) - Segment.len ⟨[], 0⟩ = 0 := by decide
  rw [h0, readEchoes_zero]
  rfl

/-! A record with a 32764-sample outgoing segment: its body is 65534
bytes, so the declared offset field is 32767.  Sequential decoding is
unaffected (`offset * 2 = 65534` does not wrap), but `seek`'s stride
`offset * 2 + 2` wraps to 0.  The first sample value 65535 makes the
mis-aligned parse after such a seek fail quickly. -/

lemma wideSegOk : SegOk ⟨65535 :: List.replicate 32763 0, 0⟩ := by
  unfold SegOk
  refine ⟨?_, ?_, by norm_num⟩
  · show (65535 :: List.replicate 32763 (0 : Nat)).length < 65536
    rw [List.length_cons, List.length_replicate]
    norm_num
  · intro v hv
    have hv2 : v ∈ 65535 :: List.replicate 32763 (0 : Nat) := hv
    rcases List.mem_cons.mp hv2 with h | h
    · rw [h]; norm_num
    · rw [List.eq_of_mem_replicate h]; norm_num

lemma wideSeg_encLen : Segment.encLen ⟨65535 :: List.replicate 32763 0, 0⟩ = 65534 := by
  rw [encLen_mk, List.length_cons, List.length_replicate]

lemma encodeShot_nil_echo (number : Nat) (og : Segment) :
    encodeShot number og []
      = u16le number ++ (u16le (og.encLen / 2) ++ encodeSegR og [0, 0]) := by
  unfold encodeShot encodeShotR
  simp only [List.map_nil, List.flatten_nil, List.append_nil,
    encodeSegR_length og [0, 0] rfl, List.append_assoc]

lemma drop_two_u16le (v : Nat) (t : List Nat) : (u16le v ++ t).drop 2 = t := rfl

lemma seekLoop_succ_lt (data : List Nat) (number fuel current p off : Nat)
    (s1 : List Nat) (hc : current < number)
    (hread : readU16 (data.drop p) = some (off, s1)) :
    seekLoop data number (fuel + 1) current p p
      = seekLoop data number fuel (current + 1) (p + 2 + seekStride off)
          (p + 2 + seekStride off) := by
  simp only [seekLoop, if_pos hc, hread]
  rw [if_neg (by omega)]

lemma seekLoop_succ_ge (data : List Nat) (number fuel current p q : Nat)
    (hc : ¬ current < number) :
    seekLoop data number (fuel + 1) current p q = .ok q := by
  simp only [seekLoop, if_neg hc]

/-- On a stream whose first record declares offset 32767, `seek 2`
computes a wrapped stride of 0 and lands back at byte 2 — the middle of
the first record's header — instead of at the second record. -/
lemma seek_wrap_stride (n1 : Nat) (rest : List Nat) :
    seek (u16le n1 ++ (u16le 32767 ++ rest)) 2 = .ok 2 := by
  have hread : readU16 ((u16le n1 ++ (u16le 32767 ++ rest)).drop 2)
      = some (32767, rest) := by
    rw [drop_two_u16le]
    exact readU16_u16le 32767 (by norm_num) rest
  have hstr : seekStride 32767 = 0 := by decide
  have hl2 : seekLoop (u16le n1 ++ (u16le 32767 ++ rest)) 2 2 1 2 2 = .ok 4 := by
    show seekLoop (u16le n1 ++ (u16le 32767 ++ rest)) 2 (1 + 1) 1 2 2 = .ok 4
    rw [seekLoop_succ_lt _ 2 1 1 2 32767 rest (by omega) hread, hstr]
    have h4 : (2 : Nat) + 2 + 0 = 4 := by norm_num
    rw [h4]
    exact seekLoop_succ_ge _ 2 0 2 4 4 (by omega)
  unfold seek
  rw [if_neg (by omega)]
  simp only [hl2]
  rw [if_neg (by omega)]

lemma encodeSegR_cons_shape (x : Nat) (d : List Nat) (ti : Nat) (res : List Nat) :
    encodeSegR ⟨x :: d, ti⟩ res
      = u16le (d.length + 1)
          ++ (u16le x ++ ((d.map u16le).flatten ++ (u16le ti ++ res))) := by
  unfold encodeSegR
  simp only [List.map_cons, List.flatten_cons, List.length_cons, List.append_assoc]

/-- After a wrapped-stride seek the cursor sits at the offset field of a
record with a 32764-sample outgoing segment whose first sample is 65535:
the mis-aligned parse takes 32767 as the shot number, 32764 as the
offset, 65535 as a sample count, and then runs out of bytes. -/
lemma read_one_after_wrap_seek (ti : Nat) (rest : List Nat)
    (hrest : rest.length ≤ 65530) :
    read_one (u16le 32767
        ++ (encodeSegR ⟨65535 :: List.replicate 32763 0, ti⟩ [0, 0] ++ rest))
      = .err .ioErr := by
  have key : ∀ zs : List Nat, zs.length = 65526 →
      read_one (u16le 32767 ++ (u16le 32764 ++ (u16le 65535
          ++ (zs ++ (u16le ti ++ ([0, 0] ++ rest)))))) = .err .ioErr := by
    intro zs hzs
    have hshort : readSamples 65535 (zs ++ (u16le ti ++ ([0, 0] ++ rest)))
        = none := by
      apply readSamples_short
      simp only [List.length_append, u16le, List.length_cons, List.length_nil]
      omega
    simp only [read_one, readU16_u16le 32767 (by norm_num),
      readU16_u16le 32764 (by norm_num), Segment.from_read,
      readU16_u16le 65535 (by norm_num), hshort]
  have hsh : encodeSegR ⟨65535 :: List.replicate 32763 0, ti⟩ [0, 0] ++ rest
      = u16le 32764 ++ (u16le 65535
          ++ ((((List.replicate 32763 (0 : Nat)).map u16le).flatten)
            ++ (u16le ti ++ ([0, 0] ++ rest)))) := by
    rw [encodeSegR_cons_shape 65535 (List.replicate 32763 0) ti [0, 0],
      List.length_replicate]
    simp only [List.append_assoc]
  rw [hsh]
  exact key (((List.replicate 32763 (0 : Nat)).map u16le).flatten)
    (by rw [flatten_u16le_length, List.length_replicate])

/-- A record with declared offset 6 and an empty outgoing segment: the
echo loop starts with `bytes_remaining = 6` on the remaining stream. -/
lemma read_one_wrap_echo (number : Nat) (u : List Nat) (segs : List Segment)
    (r : List Nat) (hn : number < 65536)
    (hre : readEchoes number 6 6 u = .ok (segs, r)) :
    read_one (u16le number ++ (u16le 6 ++ (encodeSegR ⟨[], 0⟩ [0, 0] ++ u)))
      = .ok (some (⟨number, [], segs⟩, r)) := by
  have hfr0 : Segment.from_read (encodeSegR ⟨[], 0⟩ [0, 0] ++ u) = some (⟨[], 0⟩, u) :=
    from_read_encode ⟨[], 0⟩ [0, 0] u (by decide) rfl
  have hw : wsub (bytesRemainingInit 6) (Segment.len ⟨[], 0⟩) = 6 := by decide
  simp only [read_one, readU16_u16le number hn, readU16_u16le 6 (by norm_num),
    hfr0, hw, hre]

/-! Claims. -/

/-- C1 (amended): for every shot successfully returned by `read_one`, the
sum of the exact encoded byte lengths of the outgoing segment and of all
echo segments is congruent to `offset * 2` modulo `2 ^ 16`, where
`offset` is the shot's declared 16-bit offset field.  Exact equality
holds only while the u16 byte accounting does not wrap (the
counterexample wraps it). -/
theorem c1_total_bytes_mod_u16 (s t1 t2 : List Nat) (number off : Nat)
    (sh : Shot) (r : List Nat)
    (h1 : readU16 s = some (number, t1)) (h2 : readU16 t1 = some (off, t2))
    (h3 : read_one s = .ok (some (sh, r))) :
    shotEncodedBytes sh % 65536 = off * 2 % 65536 := by
  simp only [read_one, h1, h2] at h3
  cases hfr : Segment.from_read t2 with
  | none =>
    simp only [hfr] at h3
    exact DfResult.noConfusion h3
  | some p =>
    obtain ⟨og, t3⟩ := p
    simp only [hfr] at h3
    cases hre : readEchoes number off (wsub (bytesRemainingInit off) og.len) t3 with
    | err e =>
      simp only [hre] at h3
      exact DfResult.noConfusion h3
    | ok q =>
      obtain ⟨segs, s4⟩ := q
      simp only [hre, DfResult.ok.injEq, Option.some.injEq, Prod.mk.injEq] at h3
      obtain ⟨hsh, _⟩ := h3
      rw [← hsh]
      show (og.encLen + (segs.map Segment.encLen).sum) % 65536 = off * 2 % 65536
      have hsum : (segs.map Segment.len).sum
          = wsub (bytesRemainingInit off) og.len := readEchoes_sum hre
      have hb : og.len < 65536 := len_lt og
      rw [Nat.add_mod, ← len_eq_encLen_mod, sum_encLen_mod, hsum]
      unfold wsub bytesRemainingInit
      omega

/-- C1 counterexample: a shot record whose declared offset field is 0 but
whose outgoing segment carries 32765 samples decodes successfully (the
u16 accounting wraps to 0), yet the exact encoded byte length of its
segments is 65536, not `offset * 2 = 0`. -/
theorem c1_cex :
    read_one (u16le 1 ++ u16le 0 ++ encodeSegR ⟨List.replicate 32765 0, 0⟩ [0, 0])
      = .ok (some (⟨1, List.replicate 32765 0, []⟩, [])) ∧
    readU16 (u16le 0 ++ encodeSegR ⟨List.replicate 32765 0, 0⟩ [0, 0])
      = some (0, encodeSegR ⟨List.replicate 32765 0, 0⟩ [0, 0]) ∧
    shotEncodedBytes ⟨1, List.replicate 32765 0, []⟩ = 65536 := by
  refine ⟨?_, readU16_u16le 0 (by norm_num) _, ?_⟩
  · exact read_one_zero_offset_wrap 1 ⟨List.replicate 32765 0, 0⟩ [0, 0]
      (by norm_num) bigSegOk rfl bigSeg_len
  · rw [shotEncodedBytes_mk, List.length_replicate, List.map_nil, List.sum_nil]
    norm_num

/-- C1 witness: a two-segment shot with offset 6 (12 body bytes), where
the theorem's congruence is checked concretely. -/
theorem c1_witness :
    shotEncodedBytes ⟨1, [], [⟨[], 0⟩]⟩ % 65536 = 6 * 2 % 65536 :=
  c1_total_bytes_mod_u16
    [1, 0, 6, 0, 0, 0, 0, 0, 0, 0, 0, 0, 0, 0, 0, 0]
    [6, 0, 0, 0, 0, 0, 0, 0, 0, 0, 0, 0, 0, 0]
    [0, 0, 0, 0, 0, 0, 0, 0, 0, 0, 0, 0]
    1 6 ⟨1, [], [⟨[], 0⟩]⟩ []
    (by decide) (by decide) (by decide)

/-- C3 (amended): whenever the echo-segment loop decodes a segment whose
u16 length — `Segment::len`, the exact encoded byte length reduced
modulo `2 ^ 16`, which is what the code compares at line 86 — exceeds
the current `bytes_remaining`, `read_one` fails with an invalid-offset
error carrying exactly this record's decoded `number` and `offset`
fields, and returns no shot.  With the spec's exact reading of
`encoded_length` (`2 + 2n + 2 + 2`) the claim fails: a segment whose
exact length wraps below `bytes_remaining` is accepted (see the
counterexample).  The loop state `(br, u)` is any state whose failure
propagates to the initial loop state (`hreach`; instantiate it with the
initial state itself or chain `readEchoes_cons`). -/
theorem c3_invalid_offset_error (s t1 t2 t3 u u1 : List Nat)
    (number off br : Nat) (og g : Segment)
    (h1 : readU16 s = some (number, t1)) (h2 : readU16 t1 = some (off, t2))
    (h3 : Segment.from_read t2 = some (og, t3))
    (hbr : 0 < br) (hfr : Segment.from_read u = some (g, u1)) (hlen : br < g.len)
    (hreach : ∀ e, readEchoes number off br u = .err e →
      readEchoes number off (wsub (bytesRemainingInit off) og.len) t3 = .err e) :
    read_one s = .err (.invalidOffset number off) := by
  have hv := readEchoes_invalid number off br u g u1 hbr hfr hlen
  have hinit := hreach _ hv
  simp only [read_one, h1, h2, h3, hinit]

/-- C3 witness: a record declaring 8 body bytes whose second segment
needs 8 bytes while only 2 remain; `read_one` rejects it with
`InvalidOffset {shot_number: 5, offset: 4}`. -/
theorem c3_witness :
    read_one [5, 0, 4, 0, 0, 0, 1, 0, 0, 0, 1, 0, 9, 0, 1, 0, 0, 0]
      = .err (.invalidOffset 5 4) :=
  c3_invalid_offset_error
    [5, 0, 4, 0, 0, 0, 1, 0, 0, 0, 1, 0, 9, 0, 1, 0, 0, 0]
    [4, 0, 0, 0, 1, 0, 0, 0, 1, 0, 9, 0, 1, 0, 0, 0]
    [0, 0, 1, 0, 0, 0, 1, 0, 9, 0, 1, 0, 0, 0]
    [1, 0, 9, 0, 1, 0, 0, 0]
    [1, 0, 9, 0, 1, 0, 0, 0]
    []
    5 4 2 ⟨[], 1⟩ ⟨[9], 1⟩
    (by decide) (by decide) (by decide) (by decide) (by decide) (by decide)
    (fun e h => h)

/-- C3 counterexample: a record declaring offset 6 whose echo loop, at
`bytes_remaining = 6`, decodes a 32765-sample segment with exact
encoded_length `2 + 2 * 32765 + 2 + 2 = 65536 > 6`.  The claim demands
an invalid-offset failure; the code compares the wrapped u16 length 0
instead, accepts the segment, and returns a fully assembled shot. -/
theorem c3_cex :
    read_one (u16le 1 ++ u16le 6 ++ encodeSegR ⟨[], 0⟩ [0, 0]
        ++ encodeSegR ⟨List.replicate 32765 0, 0⟩ [0, 0] ++ encodeSegR ⟨[], 0⟩ [0, 0])
      = .ok (some (⟨1, [], [⟨List.replicate 32765 0, 0⟩, ⟨[], 0⟩]⟩, [])) ∧
    Segment.encLen ⟨List.replicate 32765 0, 0⟩ = 65536 ∧
    Segment.len ⟨List.replicate 32765 0, 0⟩ = 0 := by
  refine ⟨?_, ?_, bigSeg_len⟩
  · exact read_one_wrap_echo 1
      (encodeSegR ⟨List.replicate 32765 0, 0⟩ [0, 0] ++ encodeSegR ⟨[], 0⟩ [0, 0])
      [⟨List.replicate 32765 0, 0⟩, ⟨[], 0⟩] [] (by norm_num)
      (readEchoes_wrap_pair 1 6)
  · rw [encLen_mk, List.length_replicate]

/-- C4: the code reports clean end-of-stream (`Ok(None)`) both when zero
bytes and when a single spare byte is available at the shot boundary:
`byteorder`'s `read_u16` reports `UnexpectedEof` in both situations and
`read_one` maps that kind to clean termination.  The claim (and the
`FIXME` comment in the source) say the one-byte case should instead be a
fatal I/O error. -/
theorem c4_spare_byte_is_clean_eof :
    read_one [] = .ok none ∧ read_one [7] = .ok none := by decide

/-- C6 (amended): when the outgoing segment's u16 length exceeds
`offset * 2`, the subtraction at line 82 is not checked: it wraps modulo
`2 ^ 16` and decoding continues with the wrapped `bytes_remaining`; no
invalid-offset error is raised at the subtraction itself. -/
theorem c6_underflow_wraps (s t1 t2 t3 : List Nat) (number off : Nat)
    (og : Segment)
    (h1 : readU16 s = some (number, t1)) (h2 : readU16 t1 = some (off, t2))
    (h3 : Segment.from_read t2 = some (og, t3))
    (hu : bytesRemainingInit off < og.len) :
    read_one s
      = (readEchoes number off (wsub (bytesRemainingInit off) og.len) t3).map
          (fun p => some (⟨number, og.data, p.1⟩, p.2)) := by
  have hlt : 0 < og.len := by omega
  simp only [read_one, h1, h2, h3]
  cases hre : readEchoes number off (wsub (bytesRemainingInit off) og.len) t3 with
  | err e => simp [DfResult.map]
  | ok q =>
    obtain ⟨segs, s4⟩ := q
    simp [DfResult.map]

/-- C6 witness: offset 1 (2 body bytes) with a 6-byte outgoing segment;
the budget wraps to 65530 and the loop then fails on the empty remainder
with an I/O error, not an invalid-offset error. -/
theorem c6_witness :
    read_one [1, 0, 1, 0, 0, 0, 5, 0, 9, 0]
      = (readEchoes 1 1 (wsub (bytesRemainingInit 1) (Segment.len ⟨[], 5⟩)) []).map
          (fun p => some (⟨1, [], p.1⟩, p.2)) :=
  c6_underflow_wraps [1, 0, 1, 0, 0, 0, 5, 0, 9, 0] [1, 0, 0, 0, 5, 0, 9, 0]
    [0, 0, 5, 0, 9, 0] [] 1 1 ⟨[], 5⟩
    (by decide) (by decide) (by decide) (by decide)

/-- C6 counterexample: on the witness's stream the claim predicts
`InvalidOffset {shot_number: 1, offset: 1}`; the code instead wraps the
subtraction and ends with an I/O error. -/
theorem c6_cex :
    read_one [1, 0, 1, 0, 0, 0, 5, 0, 9, 0] = .err .ioErr ∧
    read_one [1, 0, 1, 0, 0, 0, 5, 0, 9, 0] ≠ .err (.invalidOffset 1 1) := by
  decide

/-- C7 (amended): a decoded segment's reported length is
`(2 + 2 * n + 2 + 2) mod 2 ^ 16` and is always even; it equals
`2 + 2 * n + 2 + 2` exactly and is at least 6 only for sample counts up
to 32764 — for 32765 samples and beyond the u16 arithmetic wraps. -/
theorem c7_len_formula (g : Segment) :
    Segment.len g = (2 + 2 * g.data.length + 2 + 2) % 65536 ∧
    Even (Segment.len g) ∧
    (g.data.length ≤ 32764 →
      Segment.len g = 2 + 2 * g.data.length + 2 + 2 ∧ 6 ≤ Segment.len g) := by
  have hform : (2 : Nat) + 2 * g.data.length + 2 + 2 = 2 * g.data.length + 6 := by
    omega
  refine ⟨by rw [hform]; rfl, ?_, ?_⟩
  · have h1 : Segment.len g = 2 * ((g.data.length + 3) % 32768) := by
      unfold Segment.len
      have h2 : 2 * g.data.length + 6 = 2 * (g.data.length + 3) := by omega
      have h3 : (65536 : Nat) = 2 * 32768 := by norm_num
      rw [h2, h3, Nat.mul_mod_mul_left]
    rw [h1]
    exact ⟨(g.data.length + 3) % 32768, two_mul _⟩
  · intro hle
    have hv : Segment.len g = 2 * g.data.length + 6 := by
      unfold Segment.len
      exact Nat.mod_eq_of_lt (by omega)
    constructor
    · rw [hv]; omega
    · rw [hv]; omega

/-- C7 counterexample: a decodable segment with 32765 samples has
reported length 0: not the exact value 65536 and below the claimed
minimum of 6. -/
theorem c7_cex :
    Segment.from_read (encodeSegR ⟨List.replicate 32765 0, 0⟩ [0, 0])
      = some (⟨List.replicate 32765 0, 0⟩, []) ∧
    Segment.len ⟨List.replicate 32765 0, 0⟩ = 0 := by
  refine ⟨?_, bigSeg_len⟩
  have h := bigSeg_from_read []
  rwa [List.append_nil] at h

/-- C7 witness: the formula checked on a one-sample segment. -/
theorem c7_witness :
    Segment.len ⟨[5], 7⟩ = (2 + 2 * 1 + 2 + 2) % 65536 ∧
    Even (Segment.len ⟨[5], 7⟩) ∧
    ((1 : Nat) ≤ 32764 →
      Segment.len ⟨[5], 7⟩ = 2 + 2 * 1 + 2 + 2 ∧ 6 ≤ Segment.len ⟨[5], 7⟩) :=
  c7_len_formula ⟨[5], 7⟩

/-- C2 (amended): on a well-formed stream of shots numbered `1..n` whose
records each declare offset at most 32766 (record body at most 65532
bytes, so the u16 stride `offset * 2 + 2` of `seek` does not wrap), for
every target `k` with `1 ≤ k ≤ n`, `seek` succeeds and positions the
cursor exactly at the start of the k-th record; the next `read_one`
returns that shot, and it equals the k-th element of the sequential
decode of the whole stream.  `seek` never invokes the segment decoder,
so no intervening shot is materialized.  The restriction is necessary:
at offset 32767 the stride wraps to 0 and `seek` lands mid-record (see
the counterexample). -/
theorem c2_seek_then_read (shots : List (Segment × List Segment)) (k : Nat)
    (og : Segment) (es : List Segment)
    (hok : StreamOk shots) (hn : shots.length ≤ 65535) (hk1 : 1 ≤ k)
    (hentry : shots[k - 1]? = some (og, es)) :
    seek (encodeStream 1 shots) k
      = .ok ((encodeStream 1 (shots.take (k - 1))).length) ∧
    read_one ((encodeStream 1 shots).drop
        ((encodeStream 1 (shots.take (k - 1))).length))
      = .ok (some (⟨k, og.data, es⟩, encodeStream (k + 1) (shots.drop k))) ∧
    (readAll (encodeStream 1 shots))[k - 1]? = some (.ok ⟨k, og.data, es⟩) := by
  obtain ⟨hklt, hgeteq⟩ := List.getElem?_eq_some.mp hentry
  have hkle : k ≤ shots.length := by omega
  refine ⟨seek_encode shots k hok hk1 (by omega), ?_, ?_⟩
  · have hsplit := encodeStream_split shots (k - 1) 1
    rw [hsplit, List.drop_left]
    have hone : 1 + (k - 1) = k := by omega
    rw [hone]
    have hdropk : shots.drop (k - 1) = (og, es) :: shots.drop k := by
      have hcons := List.getElem_cons_drop shots (k - 1) hklt
      rw [← hcons, hgeteq]
      have hx : k - 1 + 1 = k := by omega
      rw [hx]
    rw [hdropk]
    have hmem : (og, es) ∈ shots := by
      rw [← hgeteq]
      exact List.getElem_mem hklt
    obtain ⟨hog, hes, hbody⟩ := hok (og, es) hmem
    have hog2 : SegOk og := hog
    have hes2 : ∀ g ∈ es, SegOk g := hes
    have hbody2 : shotBody og es ≤ 65532 := hbody
    show read_one (encodeShot k og es ++ encodeStream (k + 1) (shots.drop k)) = _
    exact read_one_encodeShot k og es _ (by omega) hog2 hes2 (by omega)
  · have hfuel : shots.length < (encodeStream 1 shots).length + 1 := by
      have := encodeStream_length_ge shots 1
      omega
    unfold readAll
    rw [readAllF_encode shots 1 ((encodeStream 1 shots).length + 1) hok
      (by omega) hfuel]
    rw [shotsList_getElem? shots 1 (k - 1) og es hentry]
    have hone : 1 + (k - 1) = k := by omega
    rw [hone]

/-- C2 witness: a two-shot stream; seeking to shot 2 and decoding yields
shot 2 exactly as sequential decoding does. -/
theorem c2_witness :
    seek (encodeStream 1 [(⟨[1], 2⟩, []), (⟨[3], 4⟩, [⟨[], 5⟩])]) 2
      = .ok ((encodeStream 1
          ([(⟨[1], 2⟩, []), (⟨[3], 4⟩, [⟨[], 5⟩])].take (2 - 1))).length) ∧
    read_one ((encodeStream 1 [(⟨[1], 2⟩, []), (⟨[3], 4⟩, [⟨[], 5⟩])]).drop
        ((encodeStream 1
          ([(⟨[1], 2⟩, []), (⟨[3], 4⟩, [⟨[], 5⟩])].take (2 - 1))).length))
      = .ok (some (⟨2, [3], [⟨[], 5⟩]⟩,
          encodeStream (2 + 1) ([(⟨[1], 2⟩, []), (⟨[3], 4⟩, [⟨[], 5⟩])].drop 2))) ∧
    (readAll (encodeStream 1 [(⟨[1], 2⟩, []), (⟨[3], 4⟩, [⟨[], 5⟩])]))[2 - 1]?
      = some (.ok ⟨2, [3], [⟨[], 5⟩]⟩) :=
  c2_seek_then_read [(⟨[1], 2⟩, []), (⟨[3], 4⟩, [⟨[], 5⟩])] 2 ⟨[3], 4⟩ [⟨[], 5⟩]
    (by decide) (by decide) (by decide) (by decide)

/-- C2 counterexample: a well-formed two-shot stream (both records decode
sequentially, numbered 1 and 2) whose first record declares offset 32767.
Targeting `k = 2`, `seek` succeeds but — because the u16 stride
`32767 * 2 + 2` wraps to 0 — returns cursor position 2, the middle of
shot 1's header, and the next `read_one` fails with an I/O error instead
of returning shot 2. -/
theorem c2_cex :
    read_one (encodeShot 1 ⟨65535 :: List.replicate 32763 0, 0⟩ []
        ++ encodeShot 2 ⟨[], 0⟩ [])
      = .ok (some (⟨1, 65535 :: List.replicate 32763 0, []⟩,
          encodeShot 2 ⟨[], 0⟩ [])) ∧
    read_one (encodeShot 2 ⟨[], 0⟩ []) = .ok (some (⟨2, [], []⟩, [])) ∧
    seek (encodeShot 1 ⟨65535 :: List.replicate 32763 0, 0⟩ []
        ++ encodeShot 2 ⟨[], 0⟩ []) 2 = .ok 2 ∧
    read_one ((encodeShot 1 ⟨65535 :: List.replicate 32763 0, 0⟩ []
        ++ encodeShot 2 ⟨[], 0⟩ []).drop 2) = .err .ioErr := by
  have hshape : encodeShot 1 ⟨65535 :: List.replicate 32763 0, 0⟩ []
        ++ encodeShot 2 ⟨[], 0⟩ []
      = u16le 1 ++ (u16le 32767
          ++ (encodeSegR ⟨65535 :: List.replicate 32763 0, 0⟩ [0, 0]
            ++ encodeShot 2 ⟨[], 0⟩ [])) := by
    rw [encodeShot_nil_echo 1, wideSeg_encLen]
    have hdiv : (65534 : Nat) / 2 = 32767 := by norm_num
    rw [hdiv]
    simp only [List.append_assoc]
  refine ⟨?_, by decide, ?_, ?_⟩
  · exact read_one_encodeShot 1 ⟨65535 :: List.replicate 32763 0, 0⟩ []
      (encodeShot 2 ⟨[], 0⟩ []) (by norm_num) wideSegOk
      (fun g hg => absurd hg (List.not_mem_nil g))
      (by rw [shotBody_nil, wideSeg_encLen])
  · rw [hshape]
    exact seek_wrap_stride 1 _
  · rw [hshape, drop_two_u16le]
    exact read_one_after_wrap_seek 0 (encodeShot 2 ⟨[], 0⟩ []) (by decide)

/-- C5 (amended): seeking to 0 fails with invalid-shot-number; on a
stream whose records each declare offset at most 32766 (so the u16
stride of the walk does not wrap), seeking to `n + 1` succeeds,
positions at end-of-stream, and the next decode reports clean
end-of-stream; seeking to any target beyond `n + 1` fails with an I/O
error (an `UnexpectedEof` while reading an offset field past
end-of-stream), not with an invalid-shot-number error: under File seek
semantics a relative seek always lands at its computed target, so the
`new_position` check at line 131 of the source can never fire.  On a
record with offset 32767 the stride wraps and even seek(n + 1) lands
mid-record instead (see the counterexample). -/
theorem c5_boundary (shots : List (Segment × List Segment))
    (hok : StreamOk shots) :
    seek (encodeStream 1 shots) 0 = .err (.invalidShotNumber 0) ∧
    seek (encodeStream 1 shots) (shots.length + 1)
      = .ok ((encodeStream 1 shots).length) ∧
    read_one ((encodeStream 1 shots).drop ((encodeStream 1 shots).length))
      = .ok none ∧
    (∀ t, shots.length + 1 < t → seek (encodeStream 1 shots) t = .err .ioErr) := by
  refine ⟨by simp [seek], ?_, ?_, fun t ht => seek_overrun shots t hok ht⟩
  · have h := seek_encode shots (shots.length + 1) hok (by omega) (by omega)
    rw [Nat.add_sub_cancel, List.take_length] at h
    exact h
  · rw [List.drop_length]
    decide

/-- C5 witness: a one-shot stream; seek 0 rejects, seek 2 lands at
end-of-stream with a clean decode, seek 5 errors. -/
theorem c5_witness :
    seek (encodeStream 1 [(⟨[], 0⟩, [])]) 0 = .err (.invalidShotNumber 0) ∧
    seek (encodeStream 1 [(⟨[], 0⟩, [])]) 2
      = .ok ((encodeStream 1 [(⟨[], 0⟩, [])]).length) ∧
    read_one ((encodeStream 1 [(⟨[], 0⟩, [])]).drop
        ((encodeStream 1 [(⟨[], 0⟩, [])]).length)) = .ok none ∧
    seek (encodeStream 1 [(⟨[], 0⟩, [])]) 5 = .err .ioErr := by
  have h := c5_boundary [(⟨[], 0⟩, [])] (by decide)
  exact ⟨h.1, h.2.1, h.2.2.1, h.2.2.2 5 (by decide)⟩

/-- C5 counterexample, two parts.  First: on a one-shot file (last shot
number 1), seeking to 3 fails with an I/O error, not with the
invalid-shot-number error the claim requires.  Second: on a well-formed
one-shot file whose record declares offset 32767 (it decodes
sequentially and the stream then ends cleanly), seek(2) = seek(n + 1)
succeeds but the wrapped stride lands it at byte 2 — inside shot 1's
header — so the following `read_one` fails with an I/O error instead of
cleanly reporting no more shots. -/
theorem c5_cex :
    (seek [1, 0, 3, 0, 0, 0, 0, 0, 0, 0] 3 = .err .ioErr ∧
      seek [1, 0, 3, 0, 0, 0, 0, 0, 0, 0] 3 ≠ .err (.invalidShotNumber 3)) ∧
    read_one (encodeShot 1 ⟨65535 :: List.replicate 32763 0, 0⟩ [])
      = .ok (some (⟨1, 65535 :: List.replicate 32763 0, []⟩, [])) ∧
    read_one ([] : List Nat) = .ok none ∧
    seek (encodeShot 1 ⟨65535 :: List.replicate 32763 0, 0⟩ []) 2 = .ok 2 ∧
    read_one ((encodeShot 1 ⟨65535 :: List.replicate 32763 0, 0⟩ []).drop 2)
      = .err .ioErr := by
  have hshape : encodeShot 1 ⟨65535 :: List.replicate 32763 0, 0⟩ []
      = u16le 1 ++ (u16le 32767
          ++ encodeSegR ⟨65535 :: List.replicate 32763 0, 0⟩ [0, 0]) := by
    rw [encodeShot_nil_echo 1, wideSeg_encLen]
  refine ⟨by decide, ?_, by decide, ?_, ?_⟩
  · have h := read_one_encodeShot 1 ⟨65535 :: List.replicate 32763 0, 0⟩ [] []
      (by norm_num) wideSegOk (fun g hg => absurd hg (List.not_mem_nil g))
      (by rw [shotBody_nil, wideSeg_encLen])
    rwa [List.append_nil] at h
  · rw [hshape]
    exact seek_wrap_stride 1 _
  · rw [hshape, drop_two_u16le]
    have h := read_one_after_wrap_seek 0 [] (by norm_num)
    rwa [List.append_nil] at h

/-- C8 (amended): the echo-segment loop always terminates, because every
successful segment decode consumes at least six bytes of the underlying
stream: fuel exceeding the stream length is never exhausted.  The
claim's stated mechanism is wrong, though: an iteration need not
decrease `bytes_remaining` by 6, since a segment with 32765 or more
samples has wrapped `len` below 6 (see the counterexample). -/
theorem c8_loop_terminates (number off fuel br : Nat) (s : List Nat)
    (h : s.length < fuel) : readEchoesF number off fuel br s ≠ none :=
  readEchoesF_isSome number off fuel br s h

/-- C8 witness: fuel 3 suffices for a two-byte stream. -/
theorem c8_witness : readEchoesF 1 2 3 5 [0, 0] ≠ none :=
  c8_loop_terminates 1 2 3 5 [0, 0] (by decide)

/-- C8 counterexample: with `bytes_remaining = 6` the loop decodes TWO
segments — the first has 32765 samples and wrapped length 0, so its
iteration leaves `bytes_remaining` unchanged (zero progress) without
rejecting the record, contradicting the claim that every iteration
decreases `bytes_remaining` by at least 6 or rejects. -/
theorem c8_cex :
    readEchoes 1 3 6
        (encodeSegR ⟨List.replicate 32765 0, 0⟩ [0, 0] ++ encodeSegR ⟨[], 0⟩ [0, 0])
      = .ok ([⟨List.replicate 32765 0, 0⟩, ⟨[], 0⟩], []) ∧
    Segment.len ⟨List.replicate 32765 0, 0⟩ = 0 :=
  ⟨readEchoes_wrap_pair 1 3, bigSeg_len⟩

/-- C9: the reserved trailing field never influences decoding.  For the
segment decoder: two raw segment encodings that differ only in the two
reserved bytes produce identical results.  For `read_one` built on it: a
shot record re-encoded with different reserved bytes in the outgoing and
every echo segment decodes to the identical result. -/
theorem c9_reserved_ignored
    (n : Nat) (samps tb res res' t : List Nat)
    (number : Nat) (og : Segment) (r0 r0' t2 : List Nat)
    (es es' : List (Segment × List Nat))
    (hn : n < 65536) (hs : samps.length = 2 * n) (htb : tb.length = 2)
    (hres : res.length = 2) (hres' : res'.length = 2)
    (hnum : number < 65536) (hog : SegOk og)
    (hr0 : r0.length = 2) (hr0' : r0'.length = 2)
    (hes : ∀ p ∈ es, SegOk p.1 ∧ p.2.length = 2)
    (hes' : ∀ p ∈ es', SegOk p.1 ∧ p.2.length = 2)
    (hmap : es.map Prod.fst = es'.map Prod.fst)
    (hbody : og.encLen + (es.map fun p => p.1.encLen).sum ≤ 65534) :
    Segment.from_read (u16le n ++ samps ++ tb ++ res ++ t)
      = Segment.from_read (u16le n ++ samps ++ tb ++ res' ++ t) ∧
    read_one (encodeShotR number og r0 es ++ t2)
      = read_one (encodeShotR number og r0' es' ++ t2) := by
  constructor
  · obtain ⟨xs, hxs⟩ := readSamples_det n samps hs
    obtain ⟨a, b, rfl⟩ := List.length_eq_two.mp htb
    obtain ⟨c, d, rfl⟩ := List.length_eq_two.mp hres
    obtain ⟨c', d', rfl⟩ := List.length_eq_two.mp hres'
    simp only [Segment.from_read, List.append_assoc, List.cons_append,
      List.nil_append, readU16_u16le n hn, readU16_cons, hxs]
  · have hsums : (es.map fun p => p.1.encLen) = (es'.map fun p => p.1.encLen) := by
      have h1 : (fun p : Segment × List Nat => p.1.encLen)
          = Segment.encLen ∘ Prod.fst := rfl
      rw [h1, ← List.map_map, ← List.map_map, hmap]
    rw [read_one_encode number og r0 es t2 hnum hog hr0 hes hbody,
      read_one_encode number og r0' es' t2 hnum hog hr0' hes'
        (by rw [← hsums]; exact hbody),
      hmap]

/-- C9 witness: concrete segment and shot encodings differing only in
reserved bytes decode identically. -/
theorem c9_witness :
    Segment.from_read (u16le 1 ++ [9, 0] ++ [5, 0] ++ [1, 2] ++ [7])
      = Segment.from_read (u16le 1 ++ [9, 0] ++ [5, 0] ++ [3, 4] ++ [7]) ∧
    read_one (encodeShotR 2 ⟨[], 0⟩ [9, 9] [(⟨[], 1⟩, [1, 1])] ++ [])
      = read_one (encodeShotR 2 ⟨[], 0⟩ [8, 8] [(⟨[], 1⟩, [2, 2])] ++ []) :=
  c9_reserved_ignored 1 [9, 0] [5, 0] [1, 2] [3, 4] [7] 2 ⟨[], 0⟩ [9, 9] [8, 8]
    [] [(⟨[], 1⟩, [1, 1])] [(⟨[], 1⟩, [2, 2])]
    (by decide) (by decide) (by decide) (by decide) (by decide) (by decide)
    (by decide) (by decide) (by decide) (by decide) (by decide) (by decide)
    (by decide)

/-- C10 (amended): `read_one`'s byte budget `offset * 2` and `seek`'s
stride `offset * 2 + 2` are computed in wrapping u16 arithmetic.  The
budget is exact precisely for `offset ≤ 32767`, but the stride is exact
only for `offset ≤ 32766`: at `offset = 32767` the `+ 2` also wraps (the
counterexample), so the claim's single bound 32767 is off by one for the
stride formula. -/
theorem c10_u16_wrap (off : Nat) (h : off < 65536) :
    (bytesRemainingInit off = off * 2 ↔ off ≤ 32767) ∧
    (seekStride off = off * 2 + 2 ↔ off ≤ 32766) := by
  unfold bytesRemainingInit seekStride
  constructor
  · omega
  · omega

/-- C10 witness: both formulas are exact at offset 5. -/
theorem c10_witness :
    (bytesRemainingInit 5 = 5 * 2 ↔ (5 : Nat) ≤ 32767) ∧
    (seekStride 5 = 5 * 2 + 2 ↔ (5 : Nat) ≤ 32766) :=
  c10_u16_wrap 5 (by norm_num)

/-- C10 counterexample: at offset 32767 — inside the claim's stated
precondition `offset ≤ 32767` — the stride wraps to 0 instead of 65536,
while the byte budget is still exact. -/
theorem c10_cex :
    seekStride 32767 = 0 ∧ bytesRemainingInit 32767 = 65534 ∧
    32767 * 2 + 2 = 65536 := by
  decide

end Df2
